import Mathlib

/-!
Shallow embedding of the tablature-generation core of `app.py`
(pitch normalizer, fretboard mapper, tab renderer), together with
proofs of the specified properties.

Modelling conventions:
* numpy `NaN` (the silence sentinel) is modelled by `none` in `Option`;
* Python floats are modelled by real numbers for the logarithmic
  normalizer and generically by any linearly ordered field with a floor
  for the fretboard mapper (instantiated at `ℚ` for executable checks
  and at `ℝ` for the full pipeline);
* Python `round` (round-half-to-even) is modelled by `pyRound`;
* Python `"sep".join(list)` is modelled by `pyJoin`;
* Python `range(0, total, step)` is modelled by `pyRangeStep`;
* Python slicing `l[::step]` is modelled by `decimate`, and
  `l[i:i+w]` by `segment`.
-/

namespace TabCore

variable {α : Type} [LinearOrderedField α] [FloorRing α]

/-- Python's built-in `round` on a real value: round to the nearest
integer, ties to the even integer (banker's rounding). -/
def pyRound (x : α) : ℤ :=
  if x - ⌊x⌋ < 1 / 2 then ⌊x⌋
  else if 1 / 2 < x - ⌊x⌋ then ⌊x⌋ + 1
  else if ⌊x⌋ % 2 = 0 then ⌊x⌋ else ⌊x⌋ + 1

/-- `app.py`, `midi_to_fret`: fret for a note on one string, namely
`int(round(midi_note - string_tune))` when it lies in `[0, 24]`, and
`-1` otherwise. -/
def midi_to_fret (midi_note string_tune : α) : ℤ :=
  let fret := pyRound (midi_note - string_tune)
  if 0 ≤ fret ∧ fret ≤ 24 then fret else -1

/-- `app.py`, `guitar_tuning`: the standard-tuning dict, in its
(insertion-ordered) key order `e, B, G, D, A, E`. -/
def guitar_tuning : List (String × α) :=
  [("e", 64), ("B", 59), ("G", 55), ("D", 50), ("A", 45), ("E", 40)]

/-- One step of the string-selection loop in `generate_tabs`:
given the accumulator `(best_string, min_fret)` and one
`(string_name, string_pitch)` entry, update the accumulator when
`fret != -1 and fret < min_fret`. -/
def fretFold (note : α) (acc : Option String × ℤ) (p : String × α) :
    Option String × ℤ :=
  let fret := midi_to_fret note p.2
  if fret ≠ -1 ∧ fret < acc.2 then (some p.1, fret) else acc

/-- The string-selection loop of `generate_tabs`: starting from
`best_string = None`, `min_fret = 100`, fold `fretFold` over the
tuning entries in declaration order. -/
def bestFret (note : α) (tuning : List (String × α)) : Option String × ℤ :=
  tuning.foldl (fretFold note) (none, 100)

/-- The FretAssignment computed for one (decimated) frame:
`none` is SILENT (a dash on every string); `some (s, f)` places
fret `f` on string `s`.  A frame whose note is the silence sentinel,
or for which no string admits a valid fret (`best_string` stays
`None`), is SILENT. -/
def mapNote (note : Option α) (tuning : List (String × α)) :
    Option (String × ℤ) :=
  match note with
  | none => none
  | some n =>
    match bestFret n tuning with
    | (some s, f) => some (s, f)
    | (none, _) => none

/-- The symbol appended to the line of string `s` for one frame:
the fret number in decimal if `s` is the selected string, else `"-"`. -/
def symbolFor (assign : Option (String × ℤ)) (s : String) : String :=
  match assign with
  | some (b, f) => if s = b then toString f else "-"
  | none => "-"

/-- Spec-side description of the Fretboard Mapper's candidate set:
for each string, the fret `round(semitone_value - open_string_semitone)`,
kept when `0 ≤ fret ≤ 24` (`MAX_FRET = 24`). -/
def validCands (note : α) (tuning : List (String × α)) :
    List (String × ℤ) :=
  tuning.filterMap fun p =>
    if 0 ≤ pyRound (note - p.2) ∧ pyRound (note - p.2) ≤ 24 then
      some (p.1, pyRound (note - p.2))
    else none

/-- Spec-side selection rule: the candidate with the smallest fret
number, and when several candidates tie on fret number, the one
declared earliest in the list. -/
def firstMin : List (String × ℤ) → Option (String × ℤ)
  | [] => none
  | c :: cs =>
    match firstMin cs with
    | none => some c
    | some d => if d.2 < c.2 then some d else some c

/-- Helper for `decimate`: keep the element when the countdown hits `0`
(and restart it at `step - 1`), else skip and count down. -/
def decimateFrom (step : ℕ) : List ε → ℕ → List ε
  | [], _ => []
  | x :: xs, 0 => x :: decimateFrom step xs (step - 1)
  | _ :: xs, k + 1 => decimateFrom step xs k

/-- Python slicing `l[::step]` (for `step ≥ 1`): keep the elements at
positions `0, step, 2*step, ...`. -/
def decimate (step : ℕ) (l : List ε) : List ε :=
  decimateFrom step l 0

/-- Python `range(0, total, step)` for `step ≥ 1`:
`[0, step, 2*step, ...]`, of length `⌈total / step⌉`. -/
def pyRangeStep (total step : ℕ) : List ℕ :=
  (List.range ((total + step - 1) / step)).map (· * step)

/-- Python slicing `l[i : i+w]`. -/
def segment (w : ℕ) (l : List ε) (i : ℕ) : List ε :=
  (l.drop i).take w

/-- The consecutive width-`w` chunks of a list, one per start index of
`range(0, length, w)`. -/
def chunksOf (w : ℕ) (l : List ε) : List (List ε) :=
  (pyRangeStep l.length w).map (segment w l)

/-- Python `"sep".join(parts)`. -/
def pyJoin (sep : String) : List String → String
  | [] => ""
  | [x] => x
  | x :: y :: ys => x ++ sep ++ pyJoin sep (y :: ys)

/-- `tab_lines[s]` after the main loop of `generate_tabs`: one symbol
per processed (decimated) note, on string `s`. -/
def stringLine (tuning : List (String × α)) (s : String)
    (notes : List (Option α)) : List String :=
  notes.map fun n => symbolFor (mapNote n tuning) s

/-- The display order `['e', 'B', 'G', 'D', 'A', 'E']` used in the
block-serialization loop of `generate_tabs`. -/
def displayOrder : List String := ["e", "B", "G", "D", "A", "E"]

/-- One TabBlock of `generate_tabs`, starting at index `i`: for each
string of the display order, the line
`string_name + "|" + "".join(segment) + "|"`, joined by newlines. -/
def blockAt (tuning : List (String × α)) (processed : List (Option α))
    (i : ℕ) : String :=
  pyJoin "\n" (displayOrder.map fun s =>
    s ++ "|" ++ String.join (segment 60 (stringLine tuning s processed) i) ++ "|")

/-- All TabBlocks of `generate_tabs`, one per start index of
`range(0, total_length, 60)` where `total_length = len(tab_lines['E'])`. -/
def blocksOf (tuning : List (String × α)) (processed : List (Option α)) :
    List String :=
  (pyRangeStep (stringLine tuning "E" processed).length 60).map
    (blockAt tuning processed)

/-- Steps 3b-5 of `generate_tabs` (from the MIDI-note sequence on):
decimate with stride 5, assign each kept note to a string and fret,
cut the lines into width-60 blocks, and join: `final_output` collects
each block followed by a `"\n"` entry, and the result is
`"\n".join(final_output)`. -/
def generate_tabs_text (midi_notes : List (Option α)) : String :=
  pyJoin "\n"
    ((blocksOf guitar_tuning (decimate 5 midi_notes)).flatMap fun b => [b, "\n"])

/-- Spec-side rendering for claim C2, following the spec's words:
"Blocks are separated by a blank line. The final output is the
concatenation of all block texts in original time order." — the block
texts joined by a single blank line and nothing else. -/
def specJoinBlocks (midi_notes : List (Option α)) : String :=
  pyJoin "\n\n" (blocksOf guitar_tuning (decimate 5 midi_notes))

/-- The equal-tempered conversion in `hz_to_midi`:
`12 * log2(f / 440) + 69`. -/
noncomputable def semitone (f : ℝ) : ℝ :=
  12 * Real.logb 2 (f / 440) + 69

/-- `app.py`, `hz_to_midi` on one sample: `np.where` maps a zero
frequency to NaN, `np.log2` maps a negative frequency to NaN, and NaN
propagates; otherwise the equal-tempered `semitone` value. -/
noncomputable def hz_to_midi (f : Option ℝ) : Option ℝ :=
  match f with
  | none => none
  | some x => if x = 0 then none else if x < 0 then none else some (semitone x)

/-- The Pitch Normalizer of `generate_tabs`: `f0[~voiced_flag] = NaN`
followed by `hz_to_midi` — unvoiced frames are masked to the silence
sentinel, then each frequency is converted. -/
noncomputable def normalizePitch (f0 : List ℝ) (voiced : List Bool) :
    List (Option ℝ) :=
  ((f0.zip voiced).map fun p => if p.2 then some p.1 else none).map hz_to_midi

/-! ### Helper lemmas -/

theorem pyRound_intCast (m : ℤ) : pyRound ((m : α)) = m := by
  unfold pyRound
  rw [Int.floor_intCast, sub_self]
  norm_num

theorem pyRound_eq_of_eq_intCast {x : α} (m : ℤ) (h : x = (m : α)) :
    pyRound x = m := by
  rw [h, pyRound_intCast]

theorem midi_to_fret_valid {n t : α}
    (h : 0 ≤ pyRound (n - t) ∧ pyRound (n - t) ≤ 24) :
    midi_to_fret n t = pyRound (n - t) := by
  simp only [midi_to_fret]
  rw [if_pos h]

theorem midi_to_fret_invalid {n t : α}
    (h : ¬(0 ≤ pyRound (n - t) ∧ pyRound (n - t) ≤ 24)) :
    midi_to_fret n t = -1 := by
  simp only [midi_to_fret]
  rw [if_neg h]

theorem midi_to_fret_eq_neg_one_iff (n t : α) :
    midi_to_fret n t = -1 ↔ ¬(0 ≤ pyRound (n - t) ∧ pyRound (n - t) ≤ 24) := by
  by_cases h : 0 ≤ pyRound (n - t) ∧ pyRound (n - t) ≤ 24
  · rw [midi_to_fret_valid h]
    constructor
    · intro he; omega
    · intro hn; exact absurd h hn
  · rw [midi_to_fret_invalid h]
    simp [h]

theorem firstMin_eq_none_iff (l : List (String × ℤ)) :
    firstMin l = none ↔ l = [] := by
  cases l with
  | nil => simp [firstMin]
  | cons c cs =>
    cases hcs : firstMin cs with
    | none => simp [firstMin, hcs]
    | some d =>
      simp only [firstMin, hcs]
      split <;> simp

theorem firstMin_mem : ∀ {l : List (String × ℤ)} {d : String × ℤ},
    firstMin l = some d → d ∈ l := by
  intro l
  induction l with
  | nil => intro d h; simp [firstMin] at h
  | cons c cs ih =>
    intro d h
    cases hcs : firstMin cs with
    | none =>
      simp only [firstMin, hcs] at h
      cases h
      exact List.mem_cons_self c cs
    | some e =>
      simp only [firstMin, hcs] at h
      by_cases he : e.2 < c.2
      · rw [if_pos he] at h
        cases h
        exact List.mem_cons_of_mem c (ih hcs)
      · rw [if_neg he] at h
        cases h
        exact List.mem_cons_self c cs

theorem firstMin_le : ∀ {l : List (String × ℤ)} {d : String × ℤ},
    firstMin l = some d → ∀ c ∈ l, d.2 ≤ c.2 := by
  intro l
  induction l with
  | nil => intro d h; simp [firstMin] at h
  | cons c cs ih =>
    intro d h e he
    rcases List.mem_cons.mp he with rfl | he'
    · cases hcs : firstMin cs with
      | none =>
        simp only [firstMin, hcs] at h
        cases h; exact le_refl _
      | some f =>
        simp only [firstMin, hcs] at h
        by_cases hf : f.2 < e.2
        · rw [if_pos hf] at h; cases h; omega
        · rw [if_neg hf] at h; cases h; exact le_refl _
    · cases hcs : firstMin cs with
      | none =>
        rw [firstMin_eq_none_iff] at hcs
        subst hcs
        simp at he'
      | some f =>
        have hfe := ih hcs e he'
        simp only [firstMin, hcs] at h
        by_cases hf : f.2 < c.2
        · rw [if_pos hf] at h; cases h; exact hfe
        · rw [if_neg hf] at h; cases h; omega

theorem firstMin_first : ∀ {l : List (String × ℤ)} {d : String × ℤ},
    firstMin l = some d →
      ∃ i : ℕ, l[i]? = some d ∧
        ∀ j : ℕ, j < i → ∀ c : String × ℤ, l[j]? = some c → d.2 < c.2 := by
  intro l
  induction l with
  | nil => intro d h; simp [firstMin] at h
  | cons c cs ih =>
    intro d h
    cases hcs : firstMin cs with
    | none =>
      simp only [firstMin, hcs] at h
      cases h
      exact ⟨0, by simp, fun j hj c hc => by omega⟩
    | some e =>
      simp only [firstMin, hcs] at h
      by_cases he : e.2 < c.2
      · rw [if_pos he] at h
        cases h
        obtain ⟨i, hi, hfirst⟩ := ih hcs
        refine ⟨i + 1, by simpa using hi, ?_⟩
        intro j hj f hf
        cases j with
        | zero =>
          simp only [List.getElem?_cons_zero] at hf
          cases hf
          exact he
        | succ j' =>
          simp only [List.getElem?_cons_succ] at hf
          exact hfirst j' (by omega) f hf
      · rw [if_neg he] at h
        cases h
        exact ⟨0, by simp, fun j hj c hc => by omega⟩

theorem validCands_bounds {note : α} {tuning : List (String × α)}
    {d : String × ℤ} (h : d ∈ validCands note tuning) :
    0 ≤ d.2 ∧ d.2 ≤ 24 := by
  simp only [validCands, List.mem_filterMap] at h
  obtain ⟨p, _, hf⟩ := h
  by_cases hv : 0 ≤ pyRound (note - p.2) ∧ pyRound (note - p.2) ≤ 24
  · rw [if_pos hv] at hf
    cases hf
    exact hv
  · rw [if_neg hv] at hf
    cases hf

theorem foldl_fretFold_none (note : α) :
    ∀ (l : List (String × α)) (acc : Option String × ℤ),
      firstMin (validCands note l) = none →
        l.foldl (fretFold note) acc = acc := by
  intro l
  induction l with
  | nil => intro acc _; rfl
  | cons p l ih =>
    intro acc h
    by_cases hv : 0 ≤ pyRound (note - p.2) ∧ pyRound (note - p.2) ≤ 24
    · exfalso
      have hvc : validCands note (p :: l) =
          (p.1, pyRound (note - p.2)) :: validCands note l := by
        simp only [validCands, List.filterMap_cons]
        rw [if_pos hv]
      rw [hvc, firstMin_eq_none_iff] at h
      exact List.cons_ne_nil _ _ h
    · have hvc : validCands note (p :: l) = validCands note l := by
        simp only [validCands, List.filterMap_cons]
        rw [if_neg hv]
      have hff : fretFold note acc p = acc := by
        simp only [fretFold, midi_to_fret_invalid hv]
        rw [if_neg (fun hc => hc.1 rfl)]
      rw [hvc] at h
      rw [List.foldl_cons, hff, ih acc h]

theorem foldl_fretFold_some (note : α) :
    ∀ (l : List (String × α)) (acc : Option String × ℤ) (d : String × ℤ),
      firstMin (validCands note l) = some d →
        l.foldl (fretFold note) acc =
          if d.2 < acc.2 then (some d.1, d.2) else acc := by
  intro l
  induction l with
  | nil => intro acc d h; simp [validCands, firstMin] at h
  | cons p l ih =>
    intro acc d h
    rw [List.foldl_cons]
    by_cases hv : 0 ≤ pyRound (note - p.2) ∧ pyRound (note - p.2) ≤ 24
    · have hvc : validCands note (p :: l) =
          (p.1, pyRound (note - p.2)) :: validCands note l := by
        simp only [validCands, List.filterMap_cons]
        rw [if_pos hv]
      have hff : fretFold note acc p =
          if pyRound (note - p.2) < acc.2
          then (some p.1, pyRound (note - p.2)) else acc := by
        simp only [fretFold, midi_to_fret_valid hv]
        by_cases hlt : pyRound (note - p.2) < acc.2
        · rw [if_pos ⟨by omega, hlt⟩, if_pos hlt]
        · rw [if_neg (fun hc => hlt hc.2), if_neg hlt]
      rw [hvc] at h
      cases hfm : firstMin (validCands note l) with
      | none =>
        simp only [firstMin, hfm] at h
        cases h
        rw [foldl_fretFold_none note l _ hfm, hff]
      | some e =>
        simp only [firstMin, hfm] at h
        rw [ih _ e hfm, hff]
        by_cases he : e.2 < (p.1, pyRound (note - p.2)).2
        · rw [if_pos he] at h
          cases h
          simp only [Prod.snd] at he
          by_cases hr : pyRound (note - p.2) < acc.2
          · simp only [if_pos hr, Prod.snd]
            rw [if_pos he, if_pos (show d.2 < acc.2 by omega)]
          · simp only [if_neg hr]
        · rw [if_neg he] at h
          cases h
          simp only [Prod.snd] at he
          by_cases hr : pyRound (note - p.2) < acc.2
          · simp only [if_pos hr, Prod.snd, Prod.fst]
            rw [if_neg he]
          · simp only [if_neg hr, Prod.snd, Prod.fst]
            rw [if_neg (show ¬e.2 < acc.2 by omega)]
    · have hvc : validCands note (p :: l) = validCands note l := by
        simp only [validCands, List.filterMap_cons]
        rw [if_neg hv]
      have hff : fretFold note acc p = acc := by
        simp only [fretFold, midi_to_fret_invalid hv]
        rw [if_neg (fun hc => hc.1 rfl)]
      rw [hvc] at h
      rw [hff, ih acc d h]

theorem mapNote_some (note : α) (tuning : List (String × α)) :
    mapNote (some note) tuning = firstMin (validCands note tuning) := by
  cases hfm : firstMin (validCands note tuning) with
  | none =>
    have hb := foldl_fretFold_none note tuning
      ((none : Option String), (100 : ℤ)) hfm
    simp only [mapNote, bestFret, hb]
  | some d =>
    have hbd := validCands_bounds (firstMin_mem hfm)
    have hb := foldl_fretFold_some note tuning
      ((none : Option String), (100 : ℤ)) d hfm
    rw [if_pos (show d.2 < ((none : Option String), (100 : ℤ)).2 by
      dsimp only; omega)] at hb
    simp only [mapNote, bestFret, hb]

theorem validCands_69 : validCands (69 : α) guitar_tuning =
    [("e", 5), ("B", 10), ("G", 14), ("D", 19), ("A", 24)] := by
  have h1 : pyRound ((69 : α) - 64) = 5 := pyRound_eq_of_eq_intCast 5 (by norm_num)
  have h2 : pyRound ((69 : α) - 59) = 10 := pyRound_eq_of_eq_intCast 10 (by norm_num)
  have h3 : pyRound ((69 : α) - 55) = 14 := pyRound_eq_of_eq_intCast 14 (by norm_num)
  have h4 : pyRound ((69 : α) - 50) = 19 := pyRound_eq_of_eq_intCast 19 (by norm_num)
  have h5 : pyRound ((69 : α) - 45) = 24 := pyRound_eq_of_eq_intCast 24 (by norm_num)
  have h6 : pyRound ((69 : α) - 40) = 29 := pyRound_eq_of_eq_intCast 29 (by norm_num)
  simp only [validCands, guitar_tuning, List.filterMap_cons, List.filterMap_nil,
    h1, h2, h3, h4, h5, h6]
  norm_num

theorem mapNote_69 : mapNote (some (69 : α)) guitar_tuning = some ("e", 5) := by
  rw [mapNote_some, validCands_69]
  decide

theorem decimateFrom5_getElem? {ε : Type} :
    ∀ (l : List ε) (k i : ℕ), (decimateFrom 5 l k)[i]? = l[k + i * 5]? := by
  intro l
  induction l with
  | nil => intro k i; simp [decimateFrom]
  | cons x xs ih =>
    intro k i
    cases k with
    | zero =>
      cases i with
      | zero => simp [decimateFrom]
      | succ j =>
        simp only [decimateFrom, List.getElem?_cons_succ]
        rw [ih]
        rw [show 0 + (j + 1) * 5 = ((5 - 1) + j * 5) + 1 by omega,
          List.getElem?_cons_succ]
    | succ k' =>
      simp only [decimateFrom]
      rw [ih]
      rw [show (k' + 1) + i * 5 = (k' + i * 5) + 1 by omega,
        List.getElem?_cons_succ]

theorem decimateFrom5_length {ε : Type} :
    ∀ (l : List ε) (k : ℕ),
      (decimateFrom 5 l k).length = (l.length - k + 4) / 5 := by
  intro l
  induction l with
  | nil => intro k; simp only [decimateFrom, List.length_nil]; omega
  | cons x xs ih =>
    intro k
    cases k with
    | zero =>
      simp only [decimateFrom, List.length_cons]
      rw [ih]
      omega
    | succ k' =>
      simp only [decimateFrom, List.length_cons]
      rw [ih]
      omega

theorem decimate5_getElem? {ε : Type} (l : List ε) (i : ℕ) :
    (decimate 5 l)[i]? = l[i * 5]? := by
  rw [decimate, decimateFrom5_getElem?]
  congr 1
  omega

theorem decimate5_length {ε : Type} (l : List ε) :
    (decimate 5 l).length = (l.length + 5 - 1) / 5 := by
  rw [decimate, decimateFrom5_length]
  omega

theorem decimate5_ne_nil {ε : Type} {l : List ε} (h : l ≠ []) :
    decimate 5 l ≠ [] := by
  cases l with
  | nil => exact absurd rfl h
  | cons x xs => simp [decimate, decimateFrom]

theorem decimate5_replicate {ε : Type} (n : ℕ) (a : ε) :
    decimate 5 (List.replicate n a) = List.replicate ((n + 4) / 5) a := by
  apply List.ext_getElem?
  intro i
  rw [decimate5_getElem?]
  simp only [List.getElem?_replicate, List.length_replicate]
  by_cases h : i * 5 < n
  · rw [if_pos h, if_pos (by omega)]
  · rw [if_neg h, if_neg (by omega)]

theorem chunksOf60_cons {ε : Type} (l : List ε) (h : l ≠ []) :
    chunksOf 60 l = l.take 60 :: chunksOf 60 (l.drop 60) := by
  have hN : 0 < l.length := List.length_pos.mpr h
  have hcount : (l.length + 60 - 1) / 60 = ((l.length - 60) + 60 - 1) / 60 + 1 := by
    omega
  simp only [chunksOf, pyRangeStep, List.length_drop]
  rw [hcount, List.range_succ_eq_map]
  simp only [List.map_cons, List.map_map]
  congr 1
  simp [segment]
  intro a _
  congr 2
  omega

theorem chunksOf60_flatten_aux {ε : Type} :
    ∀ (n : ℕ) (l : List ε), l.length ≤ n → (chunksOf 60 l).flatten = l := by
  intro n
  induction n with
  | zero =>
    intro l h
    have : l = [] := by
      cases l with
      | nil => rfl
      | cons x xs => simp at h
    subst this
    simp [chunksOf, pyRangeStep]
  | succ n ih =>
    intro l h
    cases l with
    | nil => simp [chunksOf, pyRangeStep]
    | cons x xs =>
      rw [chunksOf60_cons _ (by simp), List.flatten_cons,
        ih _ (by
          simp only [List.length_cons] at h
          simp only [List.length_drop, List.length_cons]
          omega),
        List.take_append_drop]

theorem chunksOf60_flatten {ε : Type} (l : List ε) :
    (chunksOf 60 l).flatten = l :=
  chunksOf60_flatten_aux l.length l le_rfl

theorem chunksOf60_length_le {ε : Type} {l : List ε} {c : List ε}
    (h : c ∈ chunksOf 60 l) : c.length ≤ 60 := by
  simp only [chunksOf, List.mem_map] at h
  obtain ⟨i, _, rfl⟩ := h
  simp only [segment, List.length_take]
  omega

theorem pyJoin_flatMap_newline :
    ∀ (bs : List String), bs ≠ [] →
      pyJoin "\n" (bs.flatMap fun b => [b, "\n"]) =
        pyJoin "\n\n\n" bs ++ "\n\n" := by
  intro bs
  induction bs with
  | nil => intro h; exact absurd rfl h
  | cons b bs ih =>
    intro _
    cases bs with
    | nil =>
      show b ++ "\n" ++ "\n" = b ++ "\n\n"
      rw [String.append_assoc]
      rfl
    | cons b2 bs2 =>
      have ih2 := ih (by simp)
      simp only [List.flatMap_cons] at ih2 ⊢
      show b ++ "\n" ++ ("\n" ++ "\n" ++ pyJoin "\n" ([b2, "\n"] ++ bs2.flatMap fun b => [b, "\n"])) =
        b ++ "\n\n\n" ++ pyJoin "\n\n\n" (b2 :: bs2) ++ "\n\n"
      rw [show pyJoin "\n" ([b2, "\n"] ++ bs2.flatMap fun b => [b, "\n"]) =
        pyJoin "\n\n\n" (b2 :: bs2) ++ "\n\n" from ih2]
      simp only [String.append_assoc]
      rfl

theorem blocksOf_ne_nil {tuning : List (String × α)}
    {processed : List (Option α)} (h : processed ≠ []) :
    blocksOf tuning processed ≠ [] := by
  have hl : (stringLine tuning "E" processed).length = processed.length :=
    List.length_map _ _
  have hp : 0 < processed.length := List.length_pos.mpr h
  simp only [blocksOf, pyRangeStep, hl, ne_eq, List.map_eq_nil_iff,
    List.range_eq_nil]
  omega

theorem semitone_440 : semitone 440 = 69 := by
  unfold semitone
  norm_num [Real.logb_one]

/-! ### Claims -/

/-- C1: for a non-silent semitone value, the Fretboard Mapper computes,
for each string, `fret = round(semitone_value - open_string_semitone)`,
keeps only the candidates with `0 ≤ fret ≤ MAX_FRET = 24`, and returns
the candidate with the smallest fret number; on ties the string declared
earlier in the tuning order wins.  Formally: `mapNote` equals the
first-minimum selection over the valid candidate list, it is silent
exactly when that list is empty, and any returned candidate is a valid
candidate of globally minimal fret that strictly beats every
earlier-declared candidate. -/
theorem claim_C1_mapper_minimal_fret (note : α) (tuning : List (String × α)) :
    mapNote (some note) tuning = firstMin (validCands note tuning) ∧
    (mapNote (some note) tuning = none ↔ validCands note tuning = []) ∧
    ∀ d : String × ℤ, mapNote (some note) tuning = some d →
      d ∈ validCands note tuning ∧
      (∀ c ∈ validCands note tuning, d.2 ≤ c.2) ∧
      ∃ i : ℕ, (validCands note tuning)[i]? = some d ∧
        ∀ j : ℕ, j < i → ∀ c : String × ℤ,
          (validCands note tuning)[j]? = some c → d.2 < c.2 := by
  refine ⟨mapNote_some note tuning, ?_, ?_⟩
  · rw [mapNote_some note tuning]
    exact firstMin_eq_none_iff _
  · intro d hd
    rw [mapNote_some note tuning] at hd
    exact ⟨firstMin_mem hd, firstMin_le hd, firstMin_first hd⟩

theorem claim_C1_witness :
    mapNote (some (69 : ℚ)) guitar_tuning = some ("e", 5) ∧
    ("e", (5 : ℤ)) ∈ validCands (69 : ℚ) guitar_tuning ∧
    ∀ c ∈ validCands (69 : ℚ) guitar_tuning, (5 : ℤ) ≤ c.2 := by
  obtain ⟨hmem, hmin, -⟩ :=
    (claim_C1_mapper_minimal_fret (69 : ℚ) guitar_tuning).2.2 ("e", 5) mapNote_69
  exact ⟨mapNote_69, hmem, hmin⟩

set_option maxRecDepth 4000 in
/-- C2 (counterexample): the claim that consecutive TabBlocks are
separated by exactly one blank line and that the output is exactly the
concatenation of the block texts fails: on a 301-frame all-silent input
(61 decimated samples, hence two blocks) the rendered text differs from
the blocks joined by a single blank line. -/
theorem claim_C2_counterexample :
    ¬ (generate_tabs_text (List.replicate 301 (none : Option ℚ)) =
        specJoinBlocks (List.replicate 301 (none : Option ℚ))) := by
  decide

/-- C2 (amended): on any nonempty input, the rendered tablature is the
block texts, in original time order, joined by a three-newline separator
(i.e. two blank lines between consecutive blocks), followed by a
trailing newline and blank line after the last block. -/
theorem claim_C2_amended (midi_notes : List (Option α))
    (h : midi_notes ≠ []) :
    generate_tabs_text midi_notes =
      pyJoin "\n\n\n" (blocksOf guitar_tuning (decimate 5 midi_notes)) ++
        "\n\n" := by
  unfold generate_tabs_text
  exact pyJoin_flatMap_newline _ (blocksOf_ne_nil (decimate5_ne_nil h))

theorem claim_C2_witness :
    generate_tabs_text [(none : Option ℚ)] =
      pyJoin "\n\n\n"
        (blocksOf guitar_tuning (decimate 5 [(none : Option ℚ)])) ++ "\n\n" :=
  claim_C2_amended [none] (List.cons_ne_nil _ _)

/-- C3: for every index of the input sequences, an unvoiced frame or a
frequency `≤ 0` is mapped to the silence sentinel, and a voiced frame
with positive frequency is mapped to exactly
`12 * log2(frequency / 440) + 69`. -/
theorem claim_C3_pitch_normalizer (f0 : List ℝ) (voiced : List Bool)
    (i : ℕ) (f : ℝ) (v : Bool) (hf : f0[i]? = some f)
    (hv : voiced[i]? = some v) :
    (normalizePitch f0 voiced)[i]? =
      some (if v = true ∧ 0 < f then some (semitone f) else none) := by
  have hz : (f0.zip voiced)[i]? = some (f, v) :=
    List.getElem?_zip_eq_some.mpr ⟨hf, hv⟩
  unfold normalizePitch
  rw [List.getElem?_map, List.getElem?_map, hz]
  cases v with
  | false => simp [hz_to_midi]
  | true =>
    show some (hz_to_midi (some f)) =
      some (if true = true ∧ 0 < f then some (semitone f) else none)
    congr 1
    simp only [hz_to_midi]
    rcases lt_trichotomy f 0 with hlt | heq | hgt
    · rw [if_neg (ne_of_lt hlt), if_pos hlt,
        if_neg (fun hc => absurd hc.2 (not_lt.mpr (le_of_lt hlt)))]
    · subst heq; simp
    · rw [if_neg (ne_of_gt hgt), if_neg (not_lt.mpr (le_of_lt hgt)),
        if_pos ⟨trivial, hgt⟩]

theorem claim_C3_witness :
    (normalizePitch [(440 : ℝ)] [true])[0]? = some (some (69 : ℝ)) := by
  have h := claim_C3_pitch_normalizer [(440 : ℝ)] [true] 0 440 true
    (by simp) (by simp)
  rw [h, if_pos ⟨rfl, by norm_num⟩, semitone_440]

/-- C4: every FretAssignment the mapper produces either is SILENT or
carries a fret number `f` with `0 ≤ f ≤ MAX_FRET = 24`. -/
theorem claim_C4_fret_bounds (note : Option α)
    (tuning : List (String × α)) (s : String) (f : ℤ)
    (h : mapNote note tuning = some (s, f)) : 0 ≤ f ∧ f ≤ 24 := by
  cases note with
  | none => simp [mapNote] at h
  | some n =>
    rw [mapNote_some] at h
    exact validCands_bounds (firstMin_mem h)

theorem claim_C4_witness :
    mapNote (some (69 : ℚ)) guitar_tuning = some ("e", 5) ∧
    0 ≤ (5 : ℤ) ∧ (5 : ℤ) ≤ 24 :=
  ⟨mapNote_69,
    claim_C4_fret_bounds (some (69 : ℚ)) guitar_tuning "e" 5 mapNote_69⟩

/-- C5: when no string admits a valid fret for a semitone value, the
Fretboard Mapper yields SILENT for that frame, every string line gets
the placeholder `"-"`, and no error is raised (the mapper is total). -/
theorem claim_C5_unplayable_silent (n : α) (tuning : List (String × α))
    (h : ∀ p ∈ tuning, midi_to_fret n p.2 = -1) :
    mapNote (some n) tuning = none ∧
      ∀ s : String, symbolFor (mapNote (some n) tuning) s = "-" := by
  have hvc : validCands n tuning = [] := by
    simp only [validCands]
    rw [List.filterMap_eq_nil_iff]
    intro p hp
    rw [if_neg ((midi_to_fret_eq_neg_one_iff n p.2).mp (h p hp))]
  have h1 : mapNote (some n) tuning = none := by
    rw [mapNote_some, hvc]
    rfl
  exact ⟨h1, fun s => by rw [h1]; rfl⟩

theorem claim_C5_witness :
    mapNote (some (30 : ℚ)) guitar_tuning = none ∧
      symbolFor (mapNote (some (30 : ℚ)) guitar_tuning) "E" = "-" := by
  have k1 : pyRound ((30 : ℚ) - 64) = -34 :=
    pyRound_eq_of_eq_intCast (-34) (by norm_num)
  have k2 : pyRound ((30 : ℚ) - 59) = -29 :=
    pyRound_eq_of_eq_intCast (-29) (by norm_num)
  have k3 : pyRound ((30 : ℚ) - 55) = -25 :=
    pyRound_eq_of_eq_intCast (-25) (by norm_num)
  have k4 : pyRound ((30 : ℚ) - 50) = -20 :=
    pyRound_eq_of_eq_intCast (-20) (by norm_num)
  have k5 : pyRound ((30 : ℚ) - 45) = -15 :=
    pyRound_eq_of_eq_intCast (-15) (by norm_num)
  have k6 : pyRound ((30 : ℚ) - 40) = -10 :=
    pyRound_eq_of_eq_intCast (-10) (by norm_num)
  have hinv : ∀ p ∈ (guitar_tuning : List (String × ℚ)),
      midi_to_fret (30 : ℚ) p.2 = -1 := by
    intro p hp
    simp only [guitar_tuning, List.mem_cons, List.not_mem_nil, or_false] at hp
    rcases hp with rfl | rfl | rfl | rfl | rfl | rfl <;> dsimp only <;>
      rw [midi_to_fret_eq_neg_one_iff] <;>
      simp only [k1, k2, k3, k4, k5, k6] <;> omega
  exact ⟨(claim_C5_unplayable_silent (30 : ℚ) guitar_tuning hinv).1,
    (claim_C5_unplayable_silent (30 : ℚ) guitar_tuning hinv).2 "E"⟩

/-- C6: decimation with factor `D = 5` is a strict stride sample: the
kept sequence has length `⌈N / 5⌉` (written `(N + 5 - 1) / 5`) and its
element `i` is element `i * 5` of the input — no averaging, no
peak-picking. -/
theorem claim_C6_decimation_stride {ε : Type} (l : List ε) :
    (decimate 5 l).length = (l.length + 5 - 1) / 5 ∧
    ∀ i : ℕ, (decimate 5 l)[i]? = l[i * 5]? :=
  ⟨decimate5_length l, fun i => decimate5_getElem? l i⟩

/-- C7: with chunk width `W = 60`, a 301-frame input (61 decimated
samples) renders as exactly 2 TabBlocks, and the second chunk of every
string line holds exactly 1 symbol; in general the chunking splits a
symbol sequence into consecutive chunks of at most 60 samples whose
concatenation is the original sequence. -/
theorem claim_C7_chunking :
    (blocksOf guitar_tuning
      (decimate 5 (List.replicate 301 (none : Option ℚ)))).length = 2 ∧
    (∀ s : String,
      (chunksOf 60 (stringLine guitar_tuning s
        (decimate 5 (List.replicate 301 (none : Option ℚ))))).map
          List.length = [60, 1]) ∧
    ∀ l : List String, (chunksOf 60 l).flatten = l ∧
      ∀ c ∈ chunksOf 60 l, c.length ≤ 60 := by
  have hP : (decimate 5 (List.replicate 301 (none : Option ℚ))).length = 61 := by
    rw [decimate5_length, List.length_replicate]
  refine ⟨?_, ?_, fun l =>
    ⟨chunksOf60_flatten l, fun c hc => chunksOf60_length_le hc⟩⟩
  · unfold blocksOf pyRangeStep
    rw [List.length_map, List.length_map, List.length_range,
      show (stringLine guitar_tuning "E"
        (decimate 5 (List.replicate 301 (none : Option ℚ)))).length =
        (decimate 5 (List.replicate 301 (none : Option ℚ))).length from
        List.length_map _ _, hP]
  · intro s
    have hl : (stringLine guitar_tuning s
        (decimate 5 (List.replicate 301 (none : Option ℚ)))).length = 61 := by
      simp only [stringLine, List.length_map]
      exact hP
    simp only [chunksOf, hl, pyRangeStep]
    rw [show (61 + 60 - 1) / 60 = 2 by norm_num,
      show List.range 2 = [0, 1] by decide]
    simp only [List.map_cons, List.map_nil, segment, List.length_take,
      List.length_drop, hl]
    norm_num

theorem claim_C7_witness :
    (chunksOf 60 ["x"]).flatten = ["x"] ∧
      (["x"] : List String).length ≤ 60 := by
  have h := claim_C7_chunking.2.2 ["x"]
  exact ⟨h.1, h.2 ["x"] (by decide)⟩

/-- C8: for a constant voiced 440 Hz input of 100 frames under standard
tuning, every frame normalizes to semitone 69; the decimated sequence is
20 copies of semitone 69; the valid candidates for 69 are
`e`:5, `B`:10, `G`:14, `D`:19, `A`:24 (so fret 5 on `e` is minimal);
and the mapper selects string `e` with fret 5. -/
theorem claim_C8_roundtrip_440 :
    normalizePitch (List.replicate 100 (440 : ℝ))
        (List.replicate 100 true) = List.replicate 100 (some (69 : ℝ)) ∧
    decimate 5 (List.replicate 100 (some (69 : ℝ))) =
      List.replicate 20 (some (69 : ℝ)) ∧
    validCands (69 : ℝ) guitar_tuning =
      [("e", 5), ("B", 10), ("G", 14), ("D", 19), ("A", 24)] ∧
    mapNote (some (69 : ℝ)) guitar_tuning = some ("e", 5) := by
  refine ⟨?_, ?_, validCands_69, mapNote_69⟩
  · unfold normalizePitch
    rw [List.zip_replicate, min_self, List.map_replicate, List.map_replicate]
    congr 1
    show hz_to_midi (some 440) = some 69
    simp only [hz_to_midi]
    rw [if_neg (by norm_num), if_neg (by norm_num : ¬(440 : ℝ) < 0),
      semitone_440]
  · rw [decimate5_replicate]

/-- C9: the normalized semitone value is strictly monotone in the
frequency on positive frequencies. -/
theorem claim_C9_semitone_monotone (f1 f2 : ℝ) (h0 : 0 < f1)
    (h12 : f1 < f2) : semitone f1 < semitone f2 := by
  unfold semitone
  have hd : f1 / 440 < f2 / 440 := by gcongr
  have := Real.logb_lt_logb (by norm_num : (1 : ℝ) < 2) (by positivity) hd
  linarith

theorem claim_C9_witness : semitone 220 < semitone 440 :=
  claim_C9_semitone_monotone 220 440 (by norm_num) (by norm_num)

/-- C10: decimating the semitone sequence and then mapping each kept
value to a FretAssignment (as the code does) agrees with mapping every
frame first and then decimating the assignments (as the spec's pipeline
order describes), because the mapper is a pure per-frame function. -/
theorem claim_C10_decimate_map_comm (midi_notes : List (Option α))
    (tuning : List (String × α)) :
    decimate 5 (midi_notes.map fun n => mapNote n tuning) =
      (decimate 5 midi_notes).map fun n => mapNote n tuning := by
  apply List.ext_getElem?
  intro i
  rw [decimate5_getElem?, List.getElem?_map, List.getElem?_map,
    decimate5_getElem?]

end TabCore
